import Mathlib

/-!
Verification of the interactive shell (word splitter, redirection parser,
pipeline wiring, history builtin, cd builtin, line editor) against its
natural-language specification.  All definitions are shallow embeddings of
the Rust sources in `src/`.
-/

set_option autoImplicit false

namespace Shell

/-! ### Word splitter — embedding of `src/split.rs` -/

/-- Rust's `char::is_whitespace` (the Unicode `White_Space` property),
used by `split.rs` via `w.is_whitespace()`. -/
def rustIsWhitespace (c : Char) : Bool :=
  let n := c.toNat
  (0x09 ≤ n && n ≤ 0x0D) || n == 0x20 || n == 0x85 || n == 0xA0 || n == 0x1680 ||
  (0x2000 ≤ n && n ≤ 0x200A) || n == 0x2028 || n == 0x2029 || n == 0x202F || n == 0x205F ||
  n == 0x3000

/-- `split.rs`: `pub struct ParseError;` -/
inductive ParseError
  | mk
deriving DecidableEq

/-- `split.rs`: the five states of the word-splitting state machine. -/
inductive SplitState
  | Delimiter
  | SingleQuoted
  | DoubleQuoted
  | Unquoted
  | Backslash
deriving DecidableEq

/-- The loop of `split.rs::split`.  `words` is the `Vec<String>` accumulator
(words are `List Char` here; `split` converts to `String` at the end),
`word` is the current-word accumulator, and the last argument is the
remaining input characters.  Each branch mirrors one `match` arm of the
Rust `loop`; `words.push(mem::take(&mut word))` becomes `words ++ [word]`
and `word.push(c)` becomes `word ++ [c]`. -/
def splitGo : SplitState → List (List Char) → List Char → List Char →
    Except ParseError (List (List Char))
  | .Delimiter, words, _word, [] => .ok words
  | .Delimiter, words, word, c :: cs =>
    if c = '\'' then splitGo .SingleQuoted words word cs
    else if c = '"' then splitGo .DoubleQuoted words word cs
    else if c = '\\' then splitGo .Backslash words word cs
    else if rustIsWhitespace c then splitGo .Delimiter words word cs
    else splitGo .Unquoted words (word ++ [c]) cs
  | .Unquoted, words, word, [] => .ok (words ++ [word])
  | .Unquoted, words, word, c :: cs =>
    if c = '\'' then splitGo .SingleQuoted words word cs
    else if c = '"' then splitGo .DoubleQuoted words word cs
    else if c = '\\' then splitGo .Backslash words word cs
    else if rustIsWhitespace c then splitGo .Delimiter (words ++ [word]) [] cs
    else splitGo .Unquoted words (word ++ [c]) cs
  | .SingleQuoted, _words, _word, [] => .error .mk
  | .SingleQuoted, words, word, c :: cs =>
    if c = '\'' then splitGo .Unquoted words word cs
    else splitGo .SingleQuoted words (word ++ [c]) cs
  | .DoubleQuoted, _words, _word, [] => .error .mk
  | .DoubleQuoted, words, word, c :: cs =>
    if c = '"' then splitGo .Unquoted words word cs
    else splitGo .DoubleQuoted words (word ++ [c]) cs
  | .Backslash, words, word, [] => .ok (words ++ [word ++ ['\\']])
  | .Backslash, words, word, c :: cs =>
    if c = '\n' then splitGo .Delimiter words word cs
    else splitGo .Unquoted words (word ++ [c]) cs

/-- `split.rs::split`: run the state machine from the `Delimiter` state with
empty accumulators. -/
def split (s : String) : Except ParseError (List String) :=
  (splitGo .Delimiter [] [] s.data).map (List.map String.mk)

/-- The pure state projection of one step of the `split` machine: the same
transitions as `splitGo`, with the word accumulators erased.  (On `Some(c)`
input no branch of the Rust `loop` returns early, so the state after the
whole input is the fold of this step function.) -/
def splitStep (st : SplitState) (c : Char) : SplitState :=
  match st with
  | .Delimiter =>
    if c = '\'' then .SingleQuoted
    else if c = '"' then .DoubleQuoted
    else if c = '\\' then .Backslash
    else if rustIsWhitespace c then .Delimiter
    else .Unquoted
  | .Unquoted =>
    if c = '\'' then .SingleQuoted
    else if c = '"' then .DoubleQuoted
    else if c = '\\' then .Backslash
    else if rustIsWhitespace c then .Delimiter
    else .Unquoted
  | .SingleQuoted => if c = '\'' then .Unquoted else .SingleQuoted
  | .DoubleQuoted => if c = '"' then .Unquoted else .DoubleQuoted
  | .Backslash => if c = '\n' then .Delimiter else .Unquoted

/-- State of the `split` machine after consuming a character list. -/
def splitRun : SplitState → List Char → SplitState
  | st, [] => st
  | st, c :: cs => splitRun (splitStep st c) cs

/-- A character that is neither whitespace nor one of the three
quoting/escape characters; such characters pass straight through the
splitter into the current word. -/
def plainChar (c : Char) : Prop :=
  rustIsWhitespace c = false ∧ c ≠ '\'' ∧ c ≠ '"' ∧ c ≠ '\\'

instance : DecidablePred plainChar := fun c => by
  unfold plainChar; infer_instance

/-- Join character-list words with single spaces (the spec's
`join(words, " ")`, at the character-list level). -/
def joinChars : List (List Char) → List Char
  | [] => []
  | [w] => w
  | w :: w' :: ws => w ++ ' ' :: joinChars (w' :: ws)

/-- Join words with single spaces (the spec's `join(words, " ")`). -/
def joinWords : List String → String
  | [] => ""
  | [w] => w
  | w :: w' :: ws => w ++ " " ++ joinWords (w' :: ws)

instance {ε α : Type} [DecidableEq ε] [DecidableEq α] : DecidableEq (Except ε α)
  | .ok a, .ok b => if h : a = b then .isTrue (by rw [h]) else .isFalse (by simp [h])
  | .ok _, .error _ => .isFalse (by simp)
  | .error _, .ok _ => .isFalse (by simp)
  | .error e, .error f => if h : e = f then .isTrue (by rw [h]) else .isFalse (by simp [h])

/-! ### Redirection parser — embedding of `src/main.rs::parse_reditections`

File handles are modelled symbolically: the sinks record the file name and
open mode instead of an open descriptor (the parser's `File::create` /
`append.open` side effects and their I/O failures are outside the model;
`map_err(|_| ())` already collapses them to `()` in the source). -/

/-- `main.rs::CommandOut` (the `Pipe` end is identified by the creation
index of its pipe). -/
inductive OutSink
  | stdout
  | fileTrunc (name : String)
  | fileAppend (name : String)
  | pipe (id : Nat)
deriving DecidableEq

/-- `main.rs::CommandErr`. -/
inductive ErrSink
  | stderr
  | fileTrunc (name : String)
  | fileAppend (name : String)
deriving DecidableEq

/-- The `while let` loop of `parse_reditections`: walks the argument
vector, consuming each redirection operator together with the following
token; all other tokens are pushed onto `actual_args` (`acc`). -/
def parseRedirGo : List String → OutSink → ErrSink → List String →
    Except Unit (List String × OutSink × ErrSink)
  | [], out, err, acc => .ok (acc, out, err)
  | a :: rest, out, err, acc =>
    if a = ">" ∨ a = "1>" then
      match rest with
      | [] => .error ()
      | f :: rest => parseRedirGo rest (.fileTrunc f) err acc
    else if a = "2>" then
      match rest with
      | [] => .error ()
      | f :: rest => parseRedirGo rest out (.fileTrunc f) acc
    else if a = ">>" ∨ a = "1>>" then
      match rest with
      | [] => .error ()
      | f :: rest => parseRedirGo rest (.fileAppend f) err acc
    else if a = "2>>" then
      match rest with
      | [] => .error ()
      | f :: rest => parseRedirGo rest out (.fileAppend f) acc
    else parseRedirGo rest out err (acc ++ [a])

/-- `main.rs::parse_reditections`: starts from the default sinks
(`Co::Stdout`, `Ce::Stderr`). -/
def parse_reditections (args : List String) :
    Except Unit (List String × OutSink × ErrSink) :=
  parseRedirGo args .stdout .stderr []

/-- A token recognised as a stdout redirection operator. -/
def isOutOp (s : String) : Bool :=
  s == ">" || s == "1>" || s == ">>" || s == "1>>"

/-- A token recognised as a stderr redirection operator. -/
def isErrOp (s : String) : Bool :=
  s == "2>" || s == "2>>"

/-- A token recognised as a redirection operator. -/
def isRedirOp (s : String) : Bool :=
  isOutOp s || isErrOp s

/-- Modelled from the spec: the left-to-right scan that recognises
operator-and-filename pairs, returning the list of pairs (in order) and
the residual argument vector; it fails exactly when an operator is
reached with no following filename token. -/
def specScan : List String → Except Unit (List (String × String) × List String)
  | [] => .ok ([], [])
  | x :: rest =>
    if isRedirOp x then
      match rest with
      | [] => .error ()
      | f :: rest => (specScan rest).map (fun pr => ((x, f) :: pr.1, pr.2))
    else (specScan rest).map (fun pr => (pr.1, x :: pr.2))

/-- The stdout sink configured by one recognised pair (leaves `d`
unchanged for stderr operators). -/
def outSinkOf (op f : String) (d : OutSink) : OutSink :=
  if op = ">" ∨ op = "1>" then .fileTrunc f
  else if op = ">>" ∨ op = "1>>" then .fileAppend f
  else d

/-- The stderr sink configured by one recognised pair. -/
def errSinkOf (op f : String) (d : ErrSink) : ErrSink :=
  if op = "2>" then .fileTrunc f
  else if op = "2>>" then .fileAppend f
  else d

/-- Left fold of recognised pairs over the stdout sink (the order in
which the parser applies them). -/
def foldOutPairs (d : OutSink) : List (String × String) → OutSink
  | [] => d
  | p :: ps => foldOutPairs (outSinkOf p.1 p.2 d) ps

/-- Left fold of recognised pairs over the stderr sink. -/
def foldErrPairs (d : ErrSink) : List (String × String) → ErrSink
  | [] => d
  | p :: ps => foldErrPairs (errSinkOf p.1 p.2 d) ps

/-- Modelled from the spec: the last recognised pair whose operator
targets stdout. -/
def lastOutPair : List (String × String) → Option (String × String)
  | [] => none
  | p :: ps =>
    match lastOutPair ps with
    | some q => some q
    | none => if isOutOp p.1 then some p else none

/-- Modelled from the spec: the last recognised pair whose operator
targets stderr. -/
def lastErrPair : List (String × String) → Option (String × String)
  | [] => none
  | p :: ps =>
    match lastErrPair ps with
    | some q => some q
    | none => if isErrOp p.1 then some p else none

/-! ### Pipeline wiring — embedding of the per-line loop of
`src/main.rs::main` (lines 446–467)

Pipes are identified by their creation index: the pipe created before the
loop has index 0 and each iteration's trailing `std::io::pipe()` call
creates the next index.  OS errors of `pipe()` are outside the model. -/

/-- One launched pipeline stage: command word, residual arguments, stdin
source (`none` = inherited, `some i` = read end of pipe `i`), and the two
output sinks. -/
structure Stage where
  command : String
  args : List String
  stdin : Option Nat
  stdout : OutSink
  stderr : ErrSink
deriving DecidableEq

/-- How the per-line loop ended abnormally: a word-split failure
(`eprintln!("Syntax error"); break`) or an unhandled redirection-parse
failure (`todo!(...)`, a panic). -/
inductive WireErr
  | badSplit
  | badRedir
deriving DecidableEq

/-- Observable result of wiring one input line: the stages launched in
order, the total number of `pipe()` calls, and how the loop ended. -/
structure WireResult where
  stages : List Stage
  pipes : Nat
  err : Option WireErr
deriving DecidableEq

/-- The `while let Some(command_string) = commands.next()` loop.
Arguments: remaining segments, current `stdin` (`None` initially), the
index of the pipe currently held in `(pipe_reader, pipe_writer)`, and the
number of pipes created so far.  An empty segment hits `continue`, which
skips both the `stdin` reassignment and the pipe rotation.  A non-last
segment (`commands.peek().is_some()`) has its stdout sink overridden with
the write end of the current pipe. -/
def wireGo : List String → Option Nat → Nat → Nat → WireResult
  | [], _, _, created => ⟨[], created, none⟩
  | seg :: rest, stdin, cur, created =>
    match split seg with
    | .error _ => ⟨[], created, some .badSplit⟩
    | .ok [] => wireGo rest stdin cur created
    | .ok (cmd :: args) =>
      match parse_reditections args with
      | .error _ => ⟨[], created, some .badRedir⟩
      | .ok (res, out, err) =>
        let stage : Stage := ⟨cmd, res, stdin, if rest = [] then out else .pipe cur, err⟩
        let r := wireGo rest (some cur) (cur + 1) (created + 1)
        ⟨stage :: r.stages, r.pipes, r.err⟩

/-- Rust's `input.split("|")` at the character level: split at every
occurrence of `'|'`; adjacent separators yield empty segments and the
empty input yields one empty segment. -/
def splitPipe : List Char → List (List Char)
  | [] => [[]]
  | c :: cs =>
    if c = '|' then [] :: splitPipe cs
    else
      match splitPipe cs with
      | w :: ws => (c :: w) :: ws
      | [] => [[c]]

/-- `input.split("|")` as used by the REPL loop. -/
def splitOnPipe (s : String) : List String :=
  (splitPipe s.data).map String.mk

/-- Wiring of one accepted input line: split on literal `|`, one pipe
already created before the loop (index 0, `created = 1`). -/
def wirePipeline (input : String) : WireResult :=
  wireGo (splitOnPipe input) none 0 1

/-- A segment that splits into a non-empty word list whose redirections
parse. -/
def segOk (seg : String) : Bool :=
  match split seg with
  | .ok (_ :: args) => (parse_reditections args).isOk
  | _ => false

/-! ### REPL history recording — embedding of `src/main.rs::main`
(lines 443–445)

The REPL writes `"    {num_history}  {input}"` to the history *file*
(`writeln!(history, ...)`), modelled as a list of written lines, and then
increments `num_history`; the loop keeps no in-memory history sequence. -/

/-- The REPL-loop state relevant to history recording: the line counter
`num_history` (starts at 1) and the lines written to the history file. -/
structure ReplState where
  numHistory : Nat
  historyFile : List String
deriving DecidableEq

/-- The record `writeln!(history, "    {num_history}  {input}")` appends:
four spaces, the counter, two spaces, the input line. -/
def historyRecord (num : Nat) (input : String) : String :=
  "    " ++ toString num ++ "  " ++ input

/-- `main.rs` lines 444–445: write the record, bump the counter. -/
def replRecordInput (st : ReplState) (input : String) : ReplState :=
  ⟨st.numHistory + 1, st.historyFile ++ [historyRecord st.numHistory input]⟩

/-- One REPL iteration after `handle_input` returns: record the line
(lines 444–445), then wire and run the pipeline (lines 446–467). -/
def replIteration (st : ReplState) (input : String) : ReplState × WireResult :=
  (replRecordInput st input, wirePipeline input)

/-! ### `history` builtin — embedding of `src/builtin.rs::Builtin::_run`
(`Builtin::History` branch)

The filesystem is modelled as `fs : String → Option String` for reads
(`std::fs::read_to_string`); writes are recorded as effects (their I/O
failures are outside the model). -/

/-- `src/builtin.rs::State`, restricted to the fields the `history`
builtin touches. -/
structure HState where
  history : List String
  history_append_position : Nat
deriving DecidableEq

/-- File/stdout writes performed by the `history` builtin. -/
inductive HistEffect
  | appendFile (name : String) (data : String)
  | createFile (name : String) (data : String)
  | echoOut (data : String)
deriving DecidableEq

/-- Rust's `str::parse::<usize>()`: digits only, value below `2^64`.
(The `+` sign prefix accepted by Rust is not modelled; no claim depends
on it.) -/
def parseUsize (s : String) : Option Nat :=
  if s.data ≠ [] ∧ s.data.all (fun c => c.isDigit) then
    let n := s.data.foldl (fun acc c => acc * 10 + (c.toNat - '0'.toNat)) 0
    if n < 2 ^ 64 then some n else none
  else none

/-- The argument-parsing `while let` loop of the `History` branch:
`-r`/`-w`/`-a` each consume the next argument (error if none); any other
token must parse as a number and must be the last argument. -/
def historyParse : List String → Option String → Option String → Option String →
    Option Nat → Except String (Option String × Option String × Option String × Option Nat)
  | [], r, w, a, n => .ok (r, w, a, n)
  | arg :: rest, r, w, a, n =>
    if arg = "-r" then
      match rest with
      | [] => .error "expected <history_file>"
      | f :: rest => historyParse rest (some f) w a n
    else if arg = "-w" then
      match rest with
      | [] => .error "expected <history_file>"
      | f :: rest => historyParse rest r (some f) a n
    else if arg = "-a" then
      match rest with
      | [] => .error "expected <history_file>"
      | f :: rest => historyParse rest r w (some f) n
    else
      match parseUsize arg with
      | none => .error ("could not parse number `" ++ arg ++ "`")
      | some v =>
        match rest with
        | [] => .ok (r, w, a, some v)
        | e :: _ => .error ("unexpected argument `" ++ e ++ "`")

/-- Rust's `str::split('\n')` at the character level. -/
def splitNl : List Char → List (List Char)
  | [] => [[]]
  | c :: cs =>
    if c = '\n' then [] :: splitNl cs
    else
      match splitNl cs with
      | w :: ws => (c :: w) :: ws
      | [] => [[c]]

/-- Rust's `str::lines()`: split on `'\n'`, drop a final empty piece
(trailing newline), strip a trailing `'\r'` from each line. -/
def rustLines (s : String) : List String :=
  let parts := splitNl s.data
  let parts :=
    match parts.getLast? with
    | some [] => parts.dropLast
    | _ => parts
  parts.map (fun l => if l.getLast? = some '\r' then String.mk l.dropLast else String.mk l)

/-- One history entry formatted as `"{:>5}  {s}"` with the 1-based index
`i + 1`. -/
def fmtEntry (i : Nat) (s : String) : String :=
  let num := toString (i + 1)
  String.mk (List.replicate (5 - num.length) ' ') ++ num ++ "  " ++ s

/-- The `Builtin::History` branch of `Builtin::_run`: parse the
arguments, check `-w`/`-a` mutual exclusion, then run the first matching
action (`-r` read, `-a` append-new-entries, `-w` write shown entries,
plain display).  In the `-a` branch the source computes the slice
`history[history_append_position..]` twice: once for the data to append
and once — its *length* — as the new `history_append_position`. -/
def historyRun (st : HState) (fs : String → Option String) (args : List String) :
    Except String (HState × List HistEffect) :=
  match historyParse args none none none none with
  | .error e => .error e
  | .ok (r, w, a, n) =>
    if w.isSome ∧ a.isSome then .error "options -w and -a are mutually exclusive"
    else
      match r with
      | some f =>
        match n with
        | some v => .error ("unexpected argument " ++ toString v)
        | none =>
          match fs f with
          | none => .error ("unable to read file `" ++ f ++ "`")
          | some content =>
            .ok (⟨st.history ++ rustLines content, st.history_append_position⟩, [])
      | none =>
        match a with
        | some f =>
          match n with
          | some v => .error ("unexpected argument " ++ toString v)
          | none =>
            let tail := st.history.drop st.history_append_position
            .ok (⟨st.history, tail.length⟩,
              [.appendFile f (String.intercalate "\n" tail ++ "\n")])
        | none =>
          let nv := n.getD st.history.length
          let shown := (st.history.enum).drop (st.history.length - nv)
          match w with
          | some f =>
            .ok (st, [.createFile f
              (String.intercalate "\n" (shown.map (fun p => p.2)) ++ "\n")])
          | none =>
            .ok (st, [.echoOut
              (String.intercalate "\n" (shown.map (fun p => fmtEntry p.1 p.2)) ++ "\n")])

/-! ### `cd` builtin — embedding of `src/builtin.rs` (`Builtin::Cd`
branch and the `Builtin::run` error wrapper) -/

/-- Rust's `str::replace("~", home)` (single-character pattern): every
`'~'` is replaced by `home`. -/
def replaceTilde (s : String) (home : String) : String :=
  String.mk ((s.data.map (fun c => if c = '~' then home.data else [c])).flatten)

/-- The `Builtin::Cd` branch of `_run`: `home` is the value of `HOME`
(`none` = unset, the `std::env::var` error), `dirOk` says whether
`set_current_dir` succeeds on a path.  Returns the new working directory
or the error message produced by `context(...)`. -/
def cdRun (home : Option String) (dirOk : String → Bool) (args : List String) :
    Except String String :=
  match home with
  | none => .error "environment variable not found"
  | some h =>
    let path := replaceTilde (args.head?.getD "~") h
    if dirOk path then .ok path else .error (path ++ ": No such file or directory")

/-- `Builtin::run` around the `Cd` branch: on `Err(e)` it writes
`"{self}: {e}\n"` — i.e. `cd: <e>` — to stderr.  Returns (working
directory after the call, text written to the stderr sink). -/
def cdOutput (home : Option String) (dirOk : String → Bool) (cwd : String)
    (args : List String) : String × String :=
  match cdRun home dirOk args with
  | .ok newCwd => (newCwd, "")
  | .error e => (cwd, "cd: " ++ e ++ "\n")

/-! ### Line editor — embedding of `src/main.rs::handle_input`

The buffer is `input: Vec<char>` (a list of characters) with a
`cursor_position: usize`.  Crucially, the source mixes units: the Tab
branch advances the cursor by `completion.len()` / `prefix.len()` — the
*UTF-8 byte length* of a `&str` — while appending `chars()` to the char
buffer, and the longest-common-prefix scan slices `first[..i]` at byte
indices, which panics off a character boundary.  Byte lengths and byte
slicing are therefore modelled exactly. -/

/-- `main.rs::Key` (the decoder's output alphabet). -/
inductive Key
  | Char (c : Char)
  | Backspace
  | Tab
  | Newline
  | Delete
  | LeftArrow
  | RightArrow
  | UpArrow
  | DownArrow
  | CtrlL
  | CtrlD
deriving DecidableEq

/-- Rust's `char::len_utf8`. -/
def rustCharLen (c : Char) : Nat :=
  if c.toNat < 0x80 then 1
  else if c.toNat < 0x800 then 2
  else if c.toNat < 0x10000 then 3
  else 4

/-- UTF-8 byte length of a character list. -/
def charsByteLen : List Char → Nat
  | [] => 0
  | c :: cs => rustCharLen c + charsByteLen cs

/-- Rust's `str::len` (UTF-8 byte length). -/
def rustStrLen (s : String) : Nat := charsByteLen s.data

/-- A string whose characters are all ASCII (byte length = char count). -/
def StrAscii (s : String) : Prop := ∀ c ∈ s.data, c.toNat < 128

instance (s : String) : Decidable (StrAscii s) := by
  unfold StrAscii; infer_instance

/-- Rust's `str::strip_prefix`: the suffix after `p`, when `p` is a
prefix of `s`. -/
def stripPref (p s : String) : Option String :=
  if p.data.isPrefixOf s.data then some (String.mk (s.data.drop p.data.length))
  else none

/-- Sorted insertion (String order = lexicographic code-point order =
Rust's byte order on UTF-8). -/
def sortInsert (x : String) : List String → List String
  | [] => [x]
  | y :: ys => if x < y then x :: y :: ys else y :: sortInsert x ys

/-- Insertion sort, modelling `completions.sort()`. -/
def sortStrs : List String → List String
  | [] => []
  | x :: xs => sortInsert x (sortStrs xs)

/-- Set semantics of the `HashSet` the completions pass through. -/
def dedupKeep : List String → List String
  | [] => []
  | x :: xs =>
    let r := dedupKeep xs
    if x ∈ r then r else x :: r

/-- `HashSet` collection followed by `Vec::from_iter` + `sort()`: the
deduplicated candidates in sorted order. -/
def dedupSort (l : List String) : List String := sortStrs (dedupKeep l)

/-- `builtin.rs::Builtin::TO_STRING`. -/
def Builtin.TO_STRING : List String := ["exit", "type", "echo", "pwd", "cd", "history"]

/-- The completion-candidate set of the Tab branch: builtin names and
catalog entries, stripped of the buffer prefix, deduplicated and
sorted. -/
def completionCandidates (ex : List String) (inputStr : String) : List String :=
  dedupSort (Builtin.TO_STRING.filterMap (fun x => stripPref inputStr x) ++
    ex.filterMap (fun x => stripPref inputStr x))

/-- Rust's byte slice `&s[..i]` on the character list of `s`: `some`
(the characters covering the first `i` bytes) when `i` is a character
boundary within bounds, `none` (a panic) otherwise. -/
def byteTake : List Char → Nat → Option (List Char)
  | _, 0 => some []
  | [], _ + 1 => none
  | c :: cs, i + 1 =>
    if rustCharLen c ≤ i + 1 then (byteTake cs (i + 1 - rustCharLen c)).map (c :: ·)
    else none

/-- How the longest-common-prefix scan can panic: `i - 1` underflow at
`i = 0` (usize subtraction in the `break` slice) or a byte slice off a
character boundary. -/
inductive ScanPanic
  | underflow
  | boundary
deriving DecidableEq

/-- The labelled block `'outer: { for i in 0..=first.len() { ... } first }`
of the Tab branch.  `fuel` counts the remaining loop iterations
(`rustStrLen first + 1 - i`); when it reaches 0 the loop has completed
without breaking and the prefix is `first` itself.  Each iteration
slices `first[..i]` (boundary panic if off-boundary), tests whether all
candidates have it as a prefix (`strip_prefix(..).is_some()`), and on
failure breaks with `first[..i - 1]` (underflow panic at `i = 0`). -/
def lcpGo (cands : List String) (first : String) : Nat → Nat → Except ScanPanic String
  | _i, 0 => .ok first
  | i, fuel + 1 =>
    match byteTake first.data i with
    | none => .error .boundary
    | some p =>
      if cands.all (fun s => p.isPrefixOf s.data) then lcpGo cands first (i + 1) fuel
      else if i = 0 then .error .underflow
      else
        match byteTake first.data (i - 1) with
        | none => .error .boundary
        | some q => .ok (String.mk q)

/-- The whole prefix scan, from `i = 0` with the full iteration count. -/
def lcpScan (cands : List String) (first : String) : Except ScanPanic String :=
  lcpGo cands first 0 (rustStrLen first + 1)

/-- Line-editor state: buffer, cursor and the two-phase tab counter. -/
structure EditorState where
  input : List Char
  cursor : Nat
  tab_count : Nat
deriving DecidableEq

/-- Result of one keystroke: keep editing, return the buffer (Newline /
Ctrl-D), or panic (`todo!()` on Up/Down arrows, `Vec::insert` out of
bounds, or an LCP-scan panic). -/
inductive EditorStep
  | cont (st : EditorState)
  | done (input : List Char)
  | crash
deriving DecidableEq

/-- `Vec::insert(i, c)` for `i ≤ len` (the in-bounds case). -/
def vecInsert (l : List Char) (i : Nat) (c : Char) : List Char :=
  l.take i ++ c :: l.drop i

/-- The Tab branch, dispatched on the candidate list.  More than one
candidate: run the LCP scan on the (sorted) first candidate; a non-empty
prefix is appended to the buffer with the cursor advanced by its *byte*
length; an empty prefix only rings the bell or lists candidates (buffer
and cursor unchanged).  Exactly one candidate `c`: append `c` and a
space, cursor advanced by `c.len() + 1` *bytes*.  No candidates: bell. -/
def tabDispatch : List String → EditorState → Nat → EditorStep
  | [], st, tc => .cont ⟨st.input, st.cursor, tc⟩
  | [c], st, tc => .cont ⟨st.input ++ c.data ++ [' '], st.cursor + rustStrLen c + 1, tc⟩
  | first :: c2 :: cs, st, tc =>
    match lcpScan (first :: c2 :: cs) first with
    | .error _ => .crash
    | .ok p =>
      if p = "" then .cont ⟨st.input, st.cursor, tc⟩
      else .cont ⟨st.input ++ p.data, st.cursor + rustStrLen p, tc⟩

/-- The `Key::Tab` arm: toggle `tab_count`, compute the candidates for
the current buffer, dispatch. -/
def handleTab (ex : List String) (st : EditorState) : EditorStep :=
  tabDispatch (completionCandidates ex (String.mk st.input)) st ((st.tab_count + 1) % 2)

/-- One iteration of the `handle_input` loop for one decoded key.
`Char`: `input.insert(cursor_position, ch)` — panics when the cursor is
past the end — then `cursor += 1`.  Arrows clamp at the ends.  Backspace
and Delete delete under their explicit guards.  Newline returns the
buffer; Ctrl-D replaces it with `exit` and returns; Ctrl-L only redraws;
Up/Down arrows hit `todo!()` (a panic). -/
def handleKey (ex : List String) (st : EditorState) : Key → EditorStep
  | .Char c =>
    if st.cursor ≤ st.input.length then
      .cont ⟨vecInsert st.input st.cursor c, st.cursor + 1, st.tab_count⟩
    else .crash
  | .RightArrow => .cont ⟨st.input, min (st.cursor + 1) st.input.length, st.tab_count⟩
  | .LeftArrow => .cont ⟨st.input, st.cursor - 1, st.tab_count⟩
  | .Backspace =>
    if 0 < st.cursor ∧ st.cursor ≤ st.input.length then
      .cont ⟨st.input.eraseIdx (st.cursor - 1), st.cursor - 1, st.tab_count⟩
    else .cont st
  | .Delete =>
    if st.cursor < st.input.length then
      .cont ⟨st.input.eraseIdx st.cursor, st.cursor, st.tab_count⟩
    else .cont st
  | .Newline => .done st.input
  | .Tab => handleTab ex st
  | .CtrlL => .cont st
  | .CtrlD => .done ("exit".data)
  | .UpArrow => .crash
  | .DownArrow => .crash

/-- The editor states reached while the loop keeps running, along a
keystroke sequence (the trace stops at Newline/Ctrl-D or a panic). -/
def editorTrace (ex : List String) : EditorState → List Key → List EditorState
  | _, [] => []
  | st, k :: ks =>
    match handleKey ex st k with
    | .cont st' => st' :: editorTrace ex st' ks
    | _ => []

end Shell

namespace Shell

theorem except_isOk_map {ε α β : Type} (f : α → β) (e : Except ε α) :
    (e.map f).isOk = e.isOk := by
  cases e <;> rfl

theorem splitGo_isOk (cs : List Char) : ∀ (st : SplitState) (words : List (List Char))
    (word : List Char),
    (splitGo st words word cs).isOk = true ↔
      splitRun st cs ≠ .SingleQuoted ∧ splitRun st cs ≠ .DoubleQuoted := by
  induction cs with
  | nil =>
    intro st words word
    cases st <;> simp [splitGo, splitRun, Except.isOk, Except.toBool]
  | cons c cs ih =>
    intro st words word
    cases st <;>
      simp only [splitGo, splitRun, splitStep] <;>
      split_ifs <;>
      apply ih

theorem splitGo_backslash_end (cs : List Char) : ∀ (st : SplitState)
    (words : List (List Char)) (word : List Char),
    splitRun st cs = .Backslash →
    ∃ ws w, splitGo st words word cs = .ok (ws ++ [w ++ ['\\']]) := by
  induction cs with
  | nil =>
    intro st words word h
    cases st <;> simp [splitRun] at h
    exact ⟨words, word, rfl⟩
  | cons c cs ih =>
    intro st words word h
    simp only [splitRun] at h
    cases st <;>
      simp only [splitGo, splitStep] at h ⊢ <;>
      split_ifs at h ⊢ <;>
      exact ih _ _ _ h

/-- C1: `split` returns an error iff the input ends while the state machine
is inside a single- or double-quoted region; and when the input ends in the
`Backslash` state the call succeeds, the final word being the current word
with a literal backslash appended. -/
theorem split_error_iff_unterminated_quote (s : String) :
    ((split s).isOk = true ↔
      ¬(splitRun .Delimiter s.data = .SingleQuoted ∨
        splitRun .Delimiter s.data = .DoubleQuoted)) ∧
    (splitRun .Delimiter s.data = .Backslash →
      ∃ ws w, splitGo .Delimiter [] [] s.data = .ok (ws ++ [w ++ ['\\']])) := by
  constructor
  · rw [split, except_isOk_map, splitGo_isOk, not_or]
  · exact splitGo_backslash_end s.data .Delimiter [] []

/-- Witness for C1 at the concrete input `"ab\\"` (which ends in the
`Backslash` state). -/
theorem split_error_iff_unterminated_quote_witness :
    (split "ab\\").isOk = true ∧
    ∃ ws w, splitGo .Delimiter [] [] "ab\\".data = .ok (ws ++ [w ++ ['\\']]) :=
  ⟨(split_error_iff_unterminated_quote "ab\\").1.mpr (by decide),
   (split_error_iff_unterminated_quote "ab\\").2 (by decide)⟩

theorem splitGo_output_plain (cs : List Char) : ∀ (st : SplitState)
    (words out : List (List Char)) (word : List Char),
    (∀ c ∈ cs, c ≠ '\'' ∧ c ≠ '"' ∧ c ≠ '\\') →
    (st = .Delimiter ∨ st = .Unquoted) →
    (∀ w ∈ words, w ≠ [] ∧ ∀ c ∈ w, plainChar c) →
    (∀ c ∈ word, plainChar c) →
    (st = .Unquoted → word ≠ []) →
    splitGo st words word cs = .ok out →
    ∀ w ∈ out, w ≠ [] ∧ ∀ c ∈ w, plainChar c := by
  induction cs with
  | nil =>
    intro st words out word _hcs hst hwords hword hne hgo
    rcases hst with rfl | rfl
    · simp only [splitGo, Except.ok.injEq] at hgo
      subst hgo; exact hwords
    · simp only [splitGo, Except.ok.injEq] at hgo
      subst hgo
      intro w hw
      rcases List.mem_append.mp hw with h | h
      · exact hwords w h
      · simp only [List.mem_singleton] at h
        subst h; exact ⟨hne rfl, hword⟩
  | cons c cs ih =>
    intro st words out word hcs hst hwords hword _hne hgo
    have hc := hcs c (List.mem_cons_self c cs)
    have hcs' : ∀ x ∈ cs, x ≠ '\'' ∧ x ≠ '"' ∧ x ≠ '\\' :=
      fun x hx => hcs x (List.mem_cons_of_mem _ hx)
    rcases hst with rfl | rfl
    · simp only [splitGo, if_neg hc.1, if_neg hc.2.1, if_neg hc.2.2] at hgo
      by_cases hw : rustIsWhitespace c = true
      · rw [if_pos hw] at hgo
        exact ih _ _ _ _ hcs' (Or.inl rfl) hwords hword (by simp) hgo
      · rw [if_neg hw] at hgo
        refine ih _ _ _ _ hcs' (Or.inr rfl) hwords ?_ (by simp) hgo
        intro x hx
        rcases List.mem_append.mp hx with h | h
        · exact hword x h
        · simp only [List.mem_singleton] at h
          subst h
          exact ⟨Bool.eq_false_iff.mpr hw, hc.1, hc.2.1, hc.2.2⟩
    · simp only [splitGo, if_neg hc.1, if_neg hc.2.1, if_neg hc.2.2] at hgo
      by_cases hw : rustIsWhitespace c = true
      · rw [if_pos hw] at hgo
        refine ih _ _ _ _ hcs' (Or.inl rfl) ?_ (by simp) (by simp) hgo
        intro w hmem
        rcases List.mem_append.mp hmem with h | h
        · exact hwords w h
        · simp only [List.mem_singleton] at h
          subst h; exact ⟨_hne rfl, hword⟩
      · rw [if_neg hw] at hgo
        refine ih _ _ _ _ hcs' (Or.inr rfl) hwords ?_ (by simp) hgo
        intro x hx
        rcases List.mem_append.mp hx with h | h
        · exact hword x h
        · simp only [List.mem_singleton] at h
          subst h
          exact ⟨Bool.eq_false_iff.mpr hw, hc.1, hc.2.1, hc.2.2⟩

theorem splitGo_plain_run (w : List Char) : (∀ c ∈ w, plainChar c) →
    ∀ (words : List (List Char)) (word rest : List Char),
    splitGo .Unquoted words word (w ++ rest) =
      splitGo .Unquoted words (word ++ w) rest := by
  induction w with
  | nil => intro _ words word rest; simp
  | cons c cs ih =>
    intro h words word rest
    have hc := h c (List.mem_cons_self c cs)
    have h' : ∀ x ∈ cs, plainChar x := fun x hx => h x (List.mem_cons_of_mem _ hx)
    simp only [List.cons_append, splitGo, if_neg hc.2.1, if_neg hc.2.2.1,
      if_neg hc.2.2.2, if_neg (by simp [hc.1] : ¬rustIsWhitespace c = true),
      List.append_eq]
    rw [ih h' words (word ++ [c]) rest, List.append_assoc]
    rfl

theorem splitGo_plain_word (w : List Char) (hw : ∀ c ∈ w, plainChar c) (hne : w ≠ []) :
    ∀ (words : List (List Char)) (word rest : List Char),
    splitGo .Delimiter words word (w ++ rest) =
      splitGo .Unquoted words (word ++ w) rest := by
  cases w with
  | nil => cases hne rfl
  | cons c cs =>
    intro words word rest
    have hc := hw c (List.mem_cons_self c cs)
    have h' : ∀ x ∈ cs, plainChar x := fun x hx => hw x (List.mem_cons_of_mem _ hx)
    simp only [List.cons_append, splitGo, if_neg hc.2.1, if_neg hc.2.2.1,
      if_neg hc.2.2.2, if_neg (by simp [hc.1] : ¬rustIsWhitespace c = true),
      List.append_eq]
    rw [splitGo_plain_run cs h' words (word ++ [c]) rest, List.append_assoc]
    rfl

theorem splitGo_join (ws : List (List Char)) :
    (∀ w ∈ ws, w ≠ [] ∧ ∀ c ∈ w, plainChar c) →
    ∀ acc, splitGo .Delimiter acc [] (joinChars ws) = .ok (acc ++ ws) := by
  induction ws with
  | nil => intro _ acc; simp [joinChars, splitGo]
  | cons w ws ih =>
    intro h acc
    have hw := h w (List.mem_cons_self w ws)
    have h' : ∀ x ∈ ws, x ≠ [] ∧ ∀ c ∈ x, plainChar c :=
      fun x hx => h x (List.mem_cons_of_mem _ hx)
    cases ws with
    | nil =>
      have := splitGo_plain_word w hw.2 hw.1 acc [] []
      simp only [List.append_nil, List.nil_append] at this
      simp only [joinChars, this, splitGo]
    | cons w' ws' =>
      simp only [joinChars]
      have step1 := splitGo_plain_word w hw.2 hw.1 acc []
        (' ' :: joinChars (w' :: ws'))
      simp only [List.nil_append] at step1
      rw [step1]
      have step2 : splitGo .Unquoted acc w (' ' :: joinChars (w' :: ws')) =
          splitGo .Delimiter (acc ++ [w]) [] (joinChars (w' :: ws')) := by
        simp only [splitGo]
        rw [if_neg (by decide), if_neg (by decide), if_neg (by decide),
          if_pos (by decide)]
      rw [step2, ih h' (acc ++ [w])]
      simp

theorem joinWords_data (ws : List String) :
    (joinWords ws).data = joinChars (ws.map String.data) := by
  induction ws with
  | nil => rfl
  | cons w ws ih =>
    cases ws with
    | nil => rfl
    | cons w' ws' =>
      simp only [joinWords, joinChars, List.map_cons, String.data_append, ih,
        List.map_cons, List.append_assoc]
      rfl

/-- C8: for inputs containing no quote or escape characters, splitting,
rejoining with single spaces, and re-splitting reproduces the same word
sequence. -/
theorem split_join_roundtrip (s : String) (words : List String)
    (hs : ∀ c ∈ s.data, c ≠ '\'' ∧ c ≠ '"' ∧ c ≠ '\\')
    (h : split s = .ok words) :
    split (joinWords words) = .ok words := by
  unfold split at h
  cases hgo : splitGo .Delimiter [] [] s.data with
  | error e => rw [hgo] at h; simp [Except.map] at h
  | ok lws =>
    rw [hgo] at h
    simp only [Except.map, Except.ok.injEq] at h
    subst h
    have hplain := splitGo_output_plain s.data .Delimiter [] lws [] hs
      (Or.inl rfl) (by simp) (by simp) (by simp) hgo
    unfold split
    rw [joinWords_data]
    have hmk : (lws.map String.mk).map String.data = lws := by
      rw [List.map_map]
      exact List.map_id'' (fun _ => rfl) lws
    rw [hmk, splitGo_join lws hplain []]
    simp [Except.map]

/-- Witness for C8 at `s = "ab  cd"` (double space collapses to one on
rejoin, so the round trip is not the identity on the raw input). -/
theorem split_join_roundtrip_witness :
    split (joinWords ["ab", "cd"]) = .ok ["ab", "cd"] :=
  split_join_roundtrip "ab  cd" ["ab", "cd"] (by decide) (by decide)

theorem isRedirOp_of_out {a : String} (h : a = ">" ∨ a = "1>" ∨ a = ">>" ∨ a = "1>>") :
    isRedirOp a = true := by
  rcases h with rfl | rfl | rfl | rfl <;> rfl

theorem parseRedirGo_eq_aux : ∀ (n : Nat) (l : List String), l.length ≤ n →
    ∀ (out : OutSink) (err : ErrSink) (acc : List String),
    parseRedirGo l out err acc =
      (specScan l).map
        (fun pr => (acc ++ pr.2, foldOutPairs out pr.1, foldErrPairs err pr.1)) := by
  intro n
  induction n with
  | zero =>
    intro l hl out err acc
    rw [Nat.le_zero, List.length_eq_zero] at hl
    subst hl
    simp [parseRedirGo, specScan, foldOutPairs, foldErrPairs, Except.map]
  | succ n ihn =>
    intro l hl out err acc
    cases l with
    | nil => simp [parseRedirGo, specScan, foldOutPairs, foldErrPairs, Except.map]
    | cons a rest =>
    have hrest : rest.length ≤ n := by
      simp only [List.length_cons] at hl; omega
    by_cases h1 : a = ">" ∨ a = "1>"
    · have hro : isRedirOp a = true := isRedirOp_of_out (by tauto)
      cases rest with
      | nil =>
        simp only [parseRedirGo, if_pos h1, specScan]
        rw [if_pos hro]
        rfl
      | cons f rest' =>
        have hr' : rest'.length ≤ n := by
          simp only [List.length_cons] at hrest; omega
        simp only [parseRedirGo, if_pos h1, specScan]
        rw [if_pos hro, ihn rest' hr']
        have ho : outSinkOf a f out = .fileTrunc f := by
          rcases h1 with rfl | rfl <;> rfl
        have he : errSinkOf a f err = err := by
          rcases h1 with rfl | rfl <;> rfl
        cases hs : specScan rest' with
        | error e => rfl
        | ok pr => simp only [Except.map, foldOutPairs, foldErrPairs, ho, he]
    · by_cases h2 : a = "2>"
      · have hro : isRedirOp a = true := by subst h2; rfl
        cases rest with
        | nil =>
          simp only [parseRedirGo, if_neg h1, if_pos h2, specScan]
          rw [if_pos hro]
          rfl
        | cons f rest' =>
          have hr' : rest'.length ≤ n := by
            simp only [List.length_cons] at hrest; omega
          simp only [parseRedirGo, if_neg h1, if_pos h2, specScan]
          rw [if_pos hro, ihn rest' hr']
          have ho : outSinkOf a f out = out := by subst h2; rfl
          have he : errSinkOf a f err = .fileTrunc f := by subst h2; rfl
          cases hs : specScan rest' with
          | error e => rfl
          | ok pr => simp only [Except.map, foldOutPairs, foldErrPairs, ho, he]
      · by_cases h3 : a = ">>" ∨ a = "1>>"
        · have hro : isRedirOp a = true := isRedirOp_of_out (by tauto)
          cases rest with
          | nil =>
            simp only [parseRedirGo, if_neg h1, if_neg h2, if_pos h3, specScan]
            rw [if_pos hro]
            rfl
          | cons f rest' =>
            have hr' : rest'.length ≤ n := by
              simp only [List.length_cons] at hrest; omega
            simp only [parseRedirGo, if_neg h1, if_neg h2, if_pos h3, specScan]
            rw [if_pos hro, ihn rest' hr']
            have ho : outSinkOf a f out = .fileAppend f := by
              rcases h3 with rfl | rfl <;> rfl
            have he : errSinkOf a f err = err := by
              rcases h3 with rfl | rfl <;> rfl
            cases hs : specScan rest' with
            | error e => rfl
            | ok pr => simp only [Except.map, foldOutPairs, foldErrPairs, ho, he]
        · by_cases h4 : a = "2>>"
          · have hro : isRedirOp a = true := by subst h4; rfl
            cases rest with
            | nil =>
              simp only [parseRedirGo, if_neg h1, if_neg h2, if_neg h3, if_pos h4, specScan]
              rw [if_pos hro]
              rfl
            | cons f rest' =>
              have hr' : rest'.length ≤ n := by
                simp only [List.length_cons] at hrest; omega
              simp only [parseRedirGo, if_neg h1, if_neg h2, if_neg h3, if_pos h4, specScan]
              rw [if_pos hro, ihn rest' hr']
              have ho : outSinkOf a f out = out := by subst h4; rfl
              have he : errSinkOf a f err = .fileAppend f := by subst h4; rfl
              cases hs : specScan rest' with
              | error e => rfl
              | ok pr => simp only [Except.map, foldOutPairs, foldErrPairs, ho, he]
          · have hro : isRedirOp a = false := by
              simp only [isRedirOp, isOutOp, isErrOp, Bool.or_eq_false_iff,
                beq_eq_false_iff_ne]
              tauto
            have hro' : ¬isRedirOp a = true := by simp [hro]
            cases rest with
            | nil =>
              simp only [parseRedirGo, if_neg h1, if_neg h2, if_neg h3, if_neg h4, specScan]
              rw [if_neg hro']
              rfl
            | cons f rest' =>
              simp only [parseRedirGo, if_neg h1, if_neg h2, if_neg h3, if_neg h4, specScan]
              rw [if_neg hro', ihn (f :: rest') hrest]
              cases hs : specScan (f :: rest') with
              | error e => rfl
              | ok pr => simp [Except.map, List.append_assoc]

theorem parseRedirGo_eq (l : List String) : ∀ (out : OutSink) (err : ErrSink)
    (acc : List String),
    parseRedirGo l out err acc =
      (specScan l).map
        (fun pr => (acc ++ pr.2, foldOutPairs out pr.1, foldErrPairs err pr.1)) :=
  parseRedirGo_eq_aux l.length l le_rfl

theorem lastOutPair_isOut (ps : List (String × String)) :
    ∀ q, lastOutPair ps = some q → isOutOp q.1 = true := by
  induction ps with
  | nil => intro q h; simp [lastOutPair] at h
  | cons p ps ih =>
    intro q h
    simp only [lastOutPair] at h
    cases hl : lastOutPair ps with
    | some r => rw [hl] at h; cases h; exact ih _ hl
    | none =>
      rw [hl] at h
      by_cases hp : isOutOp p.1 = true
      · rw [if_pos hp] at h; cases h; exact hp
      · rw [if_neg hp] at h; cases h

theorem lastErrPair_isErr (ps : List (String × String)) :
    ∀ q, lastErrPair ps = some q → isErrOp q.1 = true := by
  induction ps with
  | nil => intro q h; simp [lastErrPair] at h
  | cons p ps ih =>
    intro q h
    simp only [lastErrPair] at h
    cases hl : lastErrPair ps with
    | some r => rw [hl] at h; cases h; exact ih _ hl
    | none =>
      rw [hl] at h
      by_cases hp : isErrOp p.1 = true
      · rw [if_pos hp] at h; cases h; exact hp
      · rw [if_neg hp] at h; cases h

theorem outSinkOf_of_isOut {op : String} (f : String) (h : isOutOp op = true) :
    ∀ d₁ d₂, outSinkOf op f d₁ = outSinkOf op f d₂ := by
  simp only [isOutOp, Bool.or_eq_true, beq_iff_eq] at h
  rcases h with ((rfl | rfl) | rfl) | rfl <;> intro d₁ d₂ <;> rfl

theorem errSinkOf_of_isErr {op : String} (f : String) (h : isErrOp op = true) :
    ∀ d₁ d₂, errSinkOf op f d₁ = errSinkOf op f d₂ := by
  simp only [isErrOp, Bool.or_eq_true, beq_iff_eq] at h
  rcases h with rfl | rfl <;> intro d₁ d₂ <;> rfl

theorem outSinkOf_of_not_isOut {op : String} (f : String) (h : isOutOp op = false) :
    ∀ d, outSinkOf op f d = d := by
  intro d
  simp only [isOutOp, Bool.or_eq_false_iff, beq_eq_false_iff_ne] at h
  unfold outSinkOf
  rw [if_neg (by tauto), if_neg (by tauto)]

theorem errSinkOf_of_not_isErr {op : String} (f : String) (h : isErrOp op = false) :
    ∀ d, errSinkOf op f d = d := by
  intro d
  simp only [isErrOp, Bool.or_eq_false_iff, beq_eq_false_iff_ne] at h
  unfold errSinkOf
  rw [if_neg (by tauto), if_neg (by tauto)]

theorem foldOutPairs_eq_last (ps : List (String × String)) : ∀ d,
    foldOutPairs d ps =
      (match lastOutPair ps with
       | none => d
       | some q => outSinkOf q.1 q.2 d) := by
  induction ps with
  | nil => intro d; rfl
  | cons p ps ih =>
    intro d
    simp only [foldOutPairs, lastOutPair, ih]
    cases hl : lastOutPair ps with
    | some q => exact outSinkOf_of_isOut q.2 (lastOutPair_isOut ps q hl) _ _
    | none =>
      by_cases hp : isOutOp p.1 = true
      · rw [if_pos hp]
      · rw [if_neg hp]
        exact outSinkOf_of_not_isOut p.2 (Bool.eq_false_iff.mpr hp) d

theorem foldErrPairs_eq_last (ps : List (String × String)) : ∀ d,
    foldErrPairs d ps =
      (match lastErrPair ps with
       | none => d
       | some q => errSinkOf q.1 q.2 d) := by
  induction ps with
  | nil => intro d; rfl
  | cons p ps ih =>
    intro d
    simp only [foldErrPairs, lastErrPair, ih]
    cases hl : lastErrPair ps with
    | some q => exact errSinkOf_of_isErr q.2 (lastErrPair_isErr ps q hl) _ _
    | none =>
      by_cases hp : isErrOp p.1 = true
      · rw [if_pos hp]
      · rw [if_neg hp]
        exact errSinkOf_of_not_isErr p.2 (Bool.eq_false_iff.mpr hp) d

/-- C5: the redirection parser succeeds exactly when the left-to-right
scan never reaches an operator with no following filename token; on
success the residual vector is the input with every recognised
operator-and-filename pair removed in order, and each stream's sink is
determined by the last recognised pair targeting that stream (default
sinks when there is none). -/
theorem parse_redirections_spec (A : List String) :
    ((parse_reditections A).isOk = true ↔ (specScan A).isOk = true) ∧
    (∀ res out err, parse_reditections A = .ok (res, out, err) →
      ∃ pairs, specScan A = .ok (pairs, res) ∧
        out = (match lastOutPair pairs with
               | none => OutSink.stdout
               | some q => outSinkOf q.1 q.2 OutSink.stdout) ∧
        err = (match lastErrPair pairs with
               | none => ErrSink.stderr
               | some q => errSinkOf q.1 q.2 ErrSink.stderr)) := by
  have heq := parseRedirGo_eq A .stdout .stderr []
  constructor
  · rw [parse_reditections, heq, except_isOk_map]
  · intro res out err h
    rw [parse_reditections, heq] at h
    cases hs : specScan A with
    | error e => rw [hs] at h; simp [Except.map] at h
    | ok pr =>
      rw [hs] at h
      simp only [Except.map, Except.ok.injEq, Prod.mk.injEq, List.nil_append] at h
      obtain ⟨h1, h2, h3⟩ := h
      refine ⟨pr.1, ?_, ?_, ?_⟩
      · rw [← h1]
      · rw [← h2, foldOutPairs_eq_last]
      · rw [← h3, foldErrPairs_eq_last]

theorem wireGo_nil (sin : Option Nat) (cur created : Nat) :
    wireGo [] sin cur created = ⟨[], created, none⟩ := rfl

theorem wireGo_cons (seg : String) (rest : List String) (sin : Option Nat)
    (cur created : Nat) :
    wireGo (seg :: rest) sin cur created =
      (match split seg with
       | .error _ => ⟨[], created, some .badSplit⟩
       | .ok [] => wireGo rest sin cur created
       | .ok (cmd :: args) =>
         match parse_reditections args with
         | .error _ => ⟨[], created, some .badRedir⟩
         | .ok (res, out, err) =>
           let stage : Stage := ⟨cmd, res, sin, if rest = [] then out else .pipe cur, err⟩
           let r := wireGo rest (some cur) (cur + 1) (created + 1)
           ⟨stage :: r.stages, r.pipes, r.err⟩) := rfl

theorem getLast?_cons_of_ne {α : Type} (a : α) (l : List α) (h : l ≠ []) :
    (a :: l).getLast? = l.getLast? := by
  cases l with
  | nil => exact absurd rfl h
  | cons b bs => exact List.getLast?_cons_cons

theorem wireGo_spec (segs : List String) : ∀ (sin : Option Nat) (cur created : Nat),
    (∀ s ∈ segs, segOk s = true) →
    (wireGo segs sin cur created).err = none ∧
    (wireGo segs sin cur created).pipes = created + segs.length ∧
    (wireGo segs sin cur created).stages.length = segs.length ∧
    (∀ j, j < segs.length →
      ((wireGo segs sin cur created).stages[j]?).map Stage.stdin =
        some (if j = 0 then sin else some (cur + j - 1))) ∧
    (∀ j, j + 1 < segs.length →
      ((wireGo segs sin cur created).stages[j]?).map Stage.stdout =
        some (OutSink.pipe (cur + j))) ∧
    (∀ lseg cmd args res out err, segs.getLast? = some lseg →
      split lseg = .ok (cmd :: args) →
      parse_reditections args = .ok (res, out, err) →
      ((wireGo segs sin cur created).stages.getLast?).map Stage.stdout = some out) := by
  induction segs with
  | nil =>
    intro sin cur created _h
    refine ⟨rfl, by simp [wireGo_nil], by simp [wireGo_nil], ?_, ?_, ?_⟩
    · intro j hj; simp at hj
    · intro j hj; simp at hj
    · intro lseg cmd args res out err hlast; simp at hlast
  | cons seg rest ih =>
    intro sin cur created h
    have hseg : segOk seg = true := h seg (List.mem_cons_self seg rest)
    unfold segOk at hseg
    cases hsp : split seg with
    | error e => rw [hsp] at hseg; simp at hseg
    | ok ws =>
      rw [hsp] at hseg
      cases ws with
      | nil => simp at hseg
      | cons cmd args =>
        have hseg' : (parse_reditections args).isOk = true := hseg
        cases hpr : parse_reditections args with
        | error e =>
          rw [hpr] at hseg'; simp [Except.isOk, Except.toBool] at hseg'
        | ok triple =>
          obtain ⟨res, out, err⟩ := triple
          by_cases hnil : rest = []
          · subst hnil
            have hw : wireGo [seg] sin cur created =
                ⟨[⟨cmd, res, sin, out, err⟩], created + 1, none⟩ := by
              simp [wireGo_cons, hsp, hpr, wireGo_nil]
            refine ⟨by rw [hw], by rw [hw]; rfl, by rw [hw]; rfl, ?_, ?_, ?_⟩
            · intro j hj
              simp only [List.length_singleton] at hj
              have hj0 : j = 0 := by omega
              subst hj0
              rw [hw]
              rfl
            · intro j hj
              simp only [List.length_singleton] at hj
              omega
            · intro lseg cmd' args' res' out' err' hlast hsp' hpr'
              have hls : lseg = seg := by
                simp only [List.getLast?_singleton, Option.some.injEq] at hlast
                exact hlast.symm
              subst hls
              rw [hsp] at hsp'
              injection hsp' with h1
              injection h1 with hc ha
              subst hc; subst ha
              rw [hpr] at hpr'
              injection hpr' with h2
              injection h2 with hr hoe
              injection hoe with ho he2
              subst hr; subst ho; subst he2
              rw [hw]
              rfl
          · obtain ⟨ihe, ihp, ihl, ihin, ihout, ihlast⟩ :=
              ih (some cur) (cur + 1) (created + 1)
                (fun s hs => h s (List.mem_cons_of_mem _ hs))
            have hw : wireGo (seg :: rest) sin cur created =
                ⟨⟨cmd, res, sin, .pipe cur, err⟩ ::
                    (wireGo rest (some cur) (cur + 1) (created + 1)).stages,
                  (wireGo rest (some cur) (cur + 1) (created + 1)).pipes,
                  (wireGo rest (some cur) (cur + 1) (created + 1)).err⟩ := by
              simp only [wireGo_cons, hsp, hpr, if_neg hnil]
            refine ⟨by rw [hw]; exact ihe, ?_, ?_, ?_, ?_, ?_⟩
            · rw [hw]
              show (wireGo rest (some cur) (cur + 1) (created + 1)).pipes =
                created + (seg :: rest).length
              rw [ihp]
              simp only [List.length_cons]
              omega
            · rw [hw]
              show (wireGo rest (some cur) (cur + 1) (created + 1)).stages.length + 1 =
                (seg :: rest).length
              rw [ihl]
              rfl
            · intro j hj
              rw [hw]
              cases j with
              | zero => simp
              | succ j =>
                simp only [List.getElem?_cons_succ]
                have hj' : j < rest.length := by
                  simp only [List.length_cons] at hj; omega
                rw [ihin j hj']
                congr 1
                simp only [Nat.succ_ne_zero, if_false]
                split_ifs with h0
                · subst h0; rfl
                · congr 1; omega
            · intro j hj
              rw [hw]
              cases j with
              | zero =>
                simp only [List.getElem?_cons_zero, Option.map_some, Nat.add_zero]
                rfl
              | succ j =>
                simp only [List.getElem?_cons_succ]
                have hj' : j + 1 < rest.length := by
                  simp only [List.length_cons] at hj; omega
                rw [ihout j hj']
                congr 2
                omega
            · intro lseg cmd' args' res' out' err' hlast hsp' hpr'
              rw [getLast?_cons_of_ne seg rest hnil] at hlast
              rw [hw]
              have hne : (wireGo rest (some cur) (cur + 1) (created + 1)).stages ≠ [] := by
                intro hq
                rw [hq] at ihl
                cases rest with
                | nil => exact hnil rfl
                | cons x xs => simp at ihl
              rw [getLast?_cons_of_ne _ _ hne]
              exact ihlast lseg cmd' args' res' out' err' hlast hsp' hpr'

/-- C3 counterexample: for the pipeline `echo a|wc` (k = 2 segments) the
loop performs 3 `pipe()` calls, not k − 1 = 1. -/
theorem pipeline_pipe_count_counterexample :
    ¬((wirePipeline "echo a|wc").pipes =
        (splitOnPipe "echo a|wc").length - 1) := by
  decide

/-- C3 (amended): for a pipeline of k ≥ 2 well-formed segments, k + 1
pipes are created (one before the loop, one at the end of each
iteration); stage 0 inherits stdin; stage i (i ≥ 1) reads from the pipe
whose write end was stage i−1's stdout; every non-last stage's stdout is
the write end of its pipe, overriding any file redirection; the last
stage's stdout is whatever the redirection parser produced. -/
theorem pipeline_wiring (input : String) (k : Nat)
    (hk : (splitOnPipe input).length = k) (h2 : 2 ≤ k)
    (hok : ∀ s ∈ splitOnPipe input, segOk s = true) :
    (wirePipeline input).err = none ∧
    (wirePipeline input).pipes = k + 1 ∧
    (wirePipeline input).stages.length = k ∧
    ((wirePipeline input).stages[0]?).map Stage.stdin = some none ∧
    (∀ j, 1 ≤ j → j < k →
      ((wirePipeline input).stages[j]?).map Stage.stdin = some (some (j - 1))) ∧
    (∀ j, j + 1 < k →
      ((wirePipeline input).stages[j]?).map Stage.stdout = some (OutSink.pipe j)) ∧
    (∀ lseg cmd args res out err, (splitOnPipe input).getLast? = some lseg →
      split lseg = .ok (cmd :: args) →
      parse_reditections args = .ok (res, out, err) →
      ((wirePipeline input).stages.getLast?).map Stage.stdout = some out) := by
  unfold wirePipeline
  obtain ⟨he, hp, hl, hin, hout, hlast⟩ := wireGo_spec (splitOnPipe input) none 0 1 hok
  rw [hk] at hp hl hin hout
  refine ⟨he, by rw [hp]; omega, hl, ?_, ?_, ?_, hlast⟩
  · have := hin 0 (by omega)
    simpa using this
  · intro j h1 hj
    have := hin j hj
    rw [if_neg (by omega)] at this
    simpa using this
  · intro j hj
    have := hout j hj
    simpa using this

/-- Witness for C3 (amended) on the pipeline `echo a|wc -l`. -/
theorem pipeline_wiring_witness :
    (wirePipeline "echo a|wc -l").pipes = 2 + 1 :=
  (pipeline_wiring "echo a|wc -l" 2 (by decide) (by decide) (by decide)).2.1

/-- Witness for C5 on `["x", ">", "f", "2>", "g", ">>", "h"]`: residual
`["x"]`, stdout sink from the last stdout operator (`>> h`), stderr sink
from `2> g`. -/
theorem parse_redirections_spec_witness :
    ∃ pairs, specScan ["x", ">", "f", "2>", "g", ">>", "h"] = .ok (pairs, ["x"]) ∧
      OutSink.fileAppend "h" =
        (match lastOutPair pairs with
         | none => OutSink.stdout
         | some q => outSinkOf q.1 q.2 OutSink.stdout) ∧
      ErrSink.fileTrunc "g" =
        (match lastErrPair pairs with
         | none => ErrSink.stderr
         | some q => errSinkOf q.1 q.2 ErrSink.stderr) :=
  (parse_redirections_spec ["x", ">", "f", "2>", "g", ">>", "h"]).2
    ["x"] (.fileAppend "h") (.fileTrunc "g") (by decide)

/-- C4 counterexample: the REPL does not append the accepted line itself
to any history sequence — for input `echo hi` at counter 1 the record
written to the history file is `"    1  echo hi"`, not `"echo hi"` (and
the loop keeps no in-memory history at all). -/
theorem repl_history_record_counterexample :
    (replRecordInput ⟨1, []⟩ "echo hi").historyFile = ["    1  echo hi"] ∧
    ("    1  echo hi" : String) ≠ "echo hi" := by
  constructor
  · rfl
  · decide

/-- C4 (amended): every accepted line is recorded before the pipeline is
wired, by appending the single record `"    <n>  <line>"` (n the 1-based
line counter) to the history *file*; the counter advances by one and the
pipeline is wired from the same unmodified input. -/
theorem repl_history_record (st : ReplState) (input : String) :
    (replIteration st input).1.historyFile =
      st.historyFile ++ ["    " ++ toString st.numHistory ++ "  " ++ input] ∧
    (replIteration st input).1.numHistory = st.numHistory + 1 ∧
    (replIteration st input).2 = wirePipeline input :=
  ⟨rfl, rfl, rfl⟩

/-- C2: evaluation of `history -a f` at history `[a, b, c]` with
`history_append_position = 2`: the appended data is the unsaved tail
`"c\n"`, but the new `history_append_position` is the *length of that
tail* (1), not `len(history)` (3) as the specification requires. -/
theorem history_append_position_bug :
    historyRun ⟨["a", "b", "c"], 2⟩ (fun _ => none) ["-a", "f"] =
      .ok (⟨["a", "b", "c"], 1⟩, [.appendFile "f" "c\n"]) ∧
    (1 : Nat) ≠ (["a", "b", "c"] : List String).length := by
  constructor
  · rfl
  · decide

/-- C6 counterexample: `history -r h -w g` (with `h` readable) does not
fail — it silently performs only the read, returning success with no
write effect and`g` untouched. -/
theorem history_r_silent_read_counterexample :
    historyRun ⟨[], 0⟩ (fun f => if f = "h" then some "x\n" else none)
      ["-r", "h", "-w", "g"] = .ok (⟨["x"], 0⟩, []) := by
  rfl

/-- C6 (amended): when the parsed arguments carry `-r <f>`, a numeric
argument makes the builtin fail; but when no numeric argument is present
(and `-w`, `-a` are not both given), the builtin does not fail on
account of the combination: it performs only the read — appending the
file's lines on success, failing only if the file is unreadable — and
silently ignores any `-w` or `-a`. -/
theorem history_r_combination (st : HState) (fs : String → Option String)
    (args : List String) (f : String) (w a : Option String) (n : Option Nat)
    (hp : historyParse args none none none none = .ok (some f, w, a, n)) :
    (∀ v, n = some v → (historyRun st fs args).isOk = false) ∧
    (n = none → ¬(w.isSome ∧ a.isSome) →
      historyRun st fs args =
        match fs f with
        | none => .error ("unable to read file `" ++ f ++ "`")
        | some content =>
          .ok (⟨st.history ++ rustLines content, st.history_append_position⟩, [])) := by
  constructor
  · intro v hv
    subst hv
    unfold historyRun
    rw [hp]
    show (if w.isSome = true ∧ a.isSome = true then
        (Except.error "options -w and -a are mutually exclusive" :
          Except String (HState × List HistEffect))
      else Except.error ("unexpected argument " ++ toString v)).isOk = false
    split_ifs <;> rfl
  · intro hn hwa
    subst hn
    unfold historyRun
    rw [hp]
    show (if w.isSome = true ∧ a.isSome = true then
        (Except.error "options -w and -a are mutually exclusive" :
          Except String (HState × List HistEffect))
      else
        match fs f with
        | none => Except.error ("unable to read file `" ++ f ++ "`")
        | some content =>
          Except.ok (⟨st.history ++ rustLines content, st.history_append_position⟩, [])) =
      match fs f with
      | none => Except.error ("unable to read file `" ++ f ++ "`")
      | some content =>
        Except.ok (⟨st.history ++ rustLines content, st.history_append_position⟩, [])
    rw [if_neg hwa]

/-- Witness for C6 (amended): `history -r h 5` fails. -/
theorem history_r_combination_witness :
    (historyRun ⟨[], 0⟩ (fun _ => none) ["-r", "h", "5"]).isOk = false :=
  (history_r_combination ⟨[], 0⟩ (fun _ => none) ["-r", "h", "5"] "h"
    none none (some 5) (by decide)).1 5 rfl

/-- C7 counterexample: `cd /nonexistent` with the directory change
failing writes `"cd: /nonexistent: No such file or directory\n"` to the
stderr sink — the `Builtin::run` wrapper prefixes the builtin name — not
the bare `"/nonexistent: No such file or directory\n"` the claim states.
The working directory is unchanged. -/
theorem cd_error_message_counterexample :
    cdOutput (some "/root") (fun _ => false) "/w" ["/nonexistent"] =
      ("/w", "cd: /nonexistent: No such file or directory\n") ∧
    ("cd: /nonexistent: No such file or directory\n" : String) ≠
      "/nonexistent: No such file or directory\n" := by
  constructor
  · rfl
  · decide

/-- C7 (amended): when `HOME` is set and the directory change fails, the
text written to the stderr sink is exactly
`cd: <path>: No such file or directory` plus newline, where `<path>` is
the argument (default `~`) after `~` substitution, and the working
directory is unchanged. -/
theorem cd_failure_output (home cwd : String) (dirOk : String → Bool)
    (args : List String) (path : String)
    (hpath : path = replaceTilde (args.head?.getD "~") home)
    (hfail : dirOk path = false) :
    cdOutput (some home) dirOk cwd args =
      (cwd, "cd: " ++ path ++ ": No such file or directory\n") := by
  subst hpath
  unfold cdOutput cdRun
  simp only [hfail, Bool.false_eq_true, if_false]
  simp only [String.append_assoc]
  rfl

/-- Witness for C7 (amended) at `cd /nonexistent`, `HOME=/root`. -/
theorem cd_failure_output_witness :
    cdOutput (some "/root") (fun _ => false) "/w" ["/nope"] =
      ("/w", "cd: " ++ replaceTilde "/nope" "/root" ++
        ": No such file or directory\n") :=
  cd_failure_output "/root" "/w" (fun _ => false) ["/nope"]
    (replaceTilde "/nope" "/root") rfl rfl

theorem nil_isPrefixOf_char (l : List Char) : ([] : List Char).isPrefixOf l = true := by
  cases l <;> rfl

theorem all_nil_pref (cands : List String) :
    cands.all (fun s => ([] : List Char).isPrefixOf s.data) = true := by
  simp [List.all_eq_true, nil_isPrefixOf_char]

theorem byteTakePrefixes : ∀ (cs : List Char) (i : Nat) (p : List Char),
    byteTake cs i = some p → ∃ k, p = cs.take k := by
  intro cs
  induction cs with
  | nil =>
    intro i p h
    cases i with
    | zero =>
      refine ⟨0, ?_⟩
      have h0 : byteTake [] 0 = some ([] : List Char) := rfl
      rw [h0] at h
      exact (Option.some.inj h).symm
    | succ i => exact absurd h (by simp [byteTake])
  | cons c cs ih =>
    intro i p h
    cases i with
    | zero =>
      refine ⟨0, ?_⟩
      have h0 : byteTake (c :: cs) 0 = some ([] : List Char) := rfl
      rw [h0] at h
      exact (Option.some.inj h).symm
    | succ i =>
      simp only [byteTake] at h
      split_ifs at h with hc
      · cases hb : byteTake cs (i + 1 - rustCharLen c) with
        | none => rw [hb] at h; simp at h
        | some q =>
          rw [hb] at h
          have h2 : c :: q = p := by simpa using h
          obtain ⟨k, hk⟩ := ih _ _ hb
          refine ⟨k + 1, ?_⟩
          rw [← h2, hk]
          rfl

theorem byteTake_zero (cs : List Char) : byteTake cs 0 = some [] := by
  cases cs <;> rfl

theorem charsByteLen_ascii : ∀ (cs : List Char), (∀ c ∈ cs, c.toNat < 128) →
    charsByteLen cs = cs.length := by
  intro cs
  induction cs with
  | nil => intro _; rfl
  | cons c cs ih =>
    intro h
    have hc := h c (List.mem_cons_self c cs)
    simp only [charsByteLen, rustCharLen, if_pos hc, List.length_cons]
    rw [ih (fun x hx => h x (List.mem_cons_of_mem _ hx))]
    omega

theorem byteTake_ascii : ∀ (cs : List Char), (∀ c ∈ cs, c.toNat < 128) →
    ∀ i, i ≤ cs.length → byteTake cs i = some (cs.take i) := by
  intro cs
  induction cs with
  | nil =>
    intro _ i hi
    have : i = 0 := by simpa using hi
    subst this
    rfl
  | cons c cs ih =>
    intro h i hi
    cases i with
    | zero => rfl
    | succ i =>
      have hc : rustCharLen c = 1 := by
        simp [rustCharLen, if_pos (h c (List.mem_cons_self c cs))]
      simp only [byteTake, hc]
      rw [if_pos (by omega)]
      have : i + 1 - 1 = i := by omega
      rw [this, ih (fun x hx => h x (List.mem_cons_of_mem _ hx)) i (by simpa using hi)]
      rfl

theorem lcpGo_ne_underflow : ∀ (fuel : Nat) (cands : List String) (first : String)
    (i : Nat), lcpGo cands first i fuel ≠ .error .underflow := by
  intro fuel
  induction fuel with
  | zero => intro cands first i h; simp [lcpGo] at h
  | succ fuel ih =>
    intro cands first i h
    simp only [lcpGo] at h
    cases hb : byteTake first.data i with
    | none => simp [hb] at h
    | some p =>
      simp only [hb] at h
      by_cases hall : cands.all (fun s => p.isPrefixOf s.data) = true
      · rw [if_pos hall] at h
        exact ih _ _ _ h
      · rw [if_neg hall] at h
        by_cases hi : i = 0
        · subst hi
          rw [byteTake_zero] at hb
          have hp : p = [] := (Option.some.inj hb).symm
          subst hp
          exact hall (all_nil_pref cands)
        · rw [if_neg hi] at h
          cases hb2 : byteTake first.data (i - 1) with
          | none => simp [hb2] at h
          | some q => simp [hb2] at h

theorem lcpGo_ascii_ok : ∀ (fuel : Nat) (cands : List String) (first : String),
    StrAscii first → ∀ i, i + fuel = rustStrLen first + 1 →
    (lcpGo cands first i fuel).isOk = true := by
  intro fuel
  induction fuel with
  | zero => intro cands first _ i _; simp [lcpGo, Except.isOk, Except.toBool]
  | succ fuel ih =>
    intro cands first ha i hfi
    have hlen : rustStrLen first = first.data.length := charsByteLen_ascii _ ha
    have hile : i ≤ first.data.length := by omega
    have hbt := byteTake_ascii first.data ha i hile
    simp only [lcpGo, hbt]
    by_cases hall : cands.all (fun s => (first.data.take i).isPrefixOf s.data) = true
    · rw [if_pos hall]
      exact ih cands first ha (i + 1) (by omega)
    · rw [if_neg hall]
      by_cases hi : i = 0
      · subst hi
        have : first.data.take 0 = [] := rfl
        rw [this] at hall
        exact absurd (all_nil_pref cands) hall
      · rw [if_neg hi]
        rw [byteTake_ascii first.data ha (i - 1) (by omega)]
        rfl

theorem lcpGo_ok_pref : ∀ (fuel : Nat) (cands : List String) (first : String)
    (i : Nat) (p : String), lcpGo cands first i fuel = .ok p →
    p = first ∨ ∃ k, p.data = first.data.take k := by
  intro fuel
  induction fuel with
  | zero =>
    intro cands first i p h
    simp only [lcpGo, Except.ok.injEq] at h
    exact Or.inl h.symm
  | succ fuel ih =>
    intro cands first i p h
    simp only [lcpGo] at h
    cases hb : byteTake first.data i with
    | none => simp [hb] at h
    | some q =>
      simp only [hb] at h
      by_cases hall : cands.all (fun s => q.isPrefixOf s.data) = true
      · rw [if_pos hall] at h
        exact ih _ _ _ _ h
      · rw [if_neg hall] at h
        by_cases hi : i = 0
        · rw [if_pos hi] at h; simp at h
        · rw [if_neg hi] at h
          cases hb2 : byteTake first.data (i - 1) with
          | none => simp [hb2] at h
          | some q2 =>
            simp only [hb2, Except.ok.injEq] at h
            obtain ⟨k, hk⟩ := byteTakePrefixes _ _ _ hb2
            refine Or.inr ⟨k, ?_⟩
            rw [← h, hk]

theorem lcpScan_ok_pref (cands : List String) (first p : String)
    (h : lcpScan cands first = .ok p) :
    p = first ∨ ∃ k, p.data = first.data.take k :=
  lcpGo_ok_pref _ cands first 0 p h

/-- C10 counterexample: for the two-candidate set `["é", "ü"]` the scan
panics slicing `first[..1]` inside the first candidate `é` (byte index 1
is not a character boundary), so the multi-candidate Tab path is not
total. -/
theorem lcp_scan_boundary_counterexample :
    lcpScan ["\u00E9", "\u00FC"] "\u00E9" = .error .boundary := by
  decide

/-- C10 (amended): the `i - 1` break slice is reachable only for i ≥ 1 —
the scan never takes the underflow path, because the empty slice at
i = 0 is a prefix of every candidate — and the scan is total whenever
the first (lexicographically least) candidate is ASCII; with a
non-ASCII first candidate the byte slicing `first[..i]` can panic. -/
theorem lcp_scan_no_underflow_ascii_total (cands : List String) (first : String) :
    lcpScan cands first ≠ .error .underflow ∧
    (StrAscii first → (lcpScan cands first).isOk = true) := by
  constructor
  · exact lcpGo_ne_underflow _ cands first 0
  · intro ha
    exact lcpGo_ascii_ok _ cands first ha 0 (by omega)

/-- Witness for C10 (amended) on the ASCII candidate set `["ab", "b"]`. -/
theorem lcp_scan_no_underflow_ascii_total_witness :
    (lcpScan ["ab", "b"] "ab").isOk = true :=
  (lcp_scan_no_underflow_ascii_total ["ab", "b"] "ab").2 (by decide)

theorem mem_sortInsert (x y : String) (l : List String) (h : y ∈ sortInsert x l) :
    y = x ∨ y ∈ l := by
  induction l with
  | nil => simp [sortInsert] at h; exact Or.inl h
  | cons z zs ih =>
    simp only [sortInsert] at h
    split_ifs at h
    · rcases List.mem_cons.mp h with h1 | h1
      · exact Or.inl h1
      · exact Or.inr h1
    · rcases List.mem_cons.mp h with h1 | h1
      · exact Or.inr (h1 ▸ List.mem_cons_self z zs)
      · rcases ih h1 with h2 | h2
        · exact Or.inl h2
        · exact Or.inr (List.mem_cons_of_mem _ h2)

theorem mem_sortStrs (y : String) (l : List String) (h : y ∈ sortStrs l) : y ∈ l := by
  induction l with
  | nil => simp [sortStrs] at h
  | cons x xs ih =>
    simp only [sortStrs] at h
    rcases mem_sortInsert x y (sortStrs xs) h with h1 | h1
    · exact h1 ▸ List.mem_cons_self x xs
    · exact List.mem_cons_of_mem _ (ih h1)

theorem mem_dedupKeep (y : String) (l : List String) (h : y ∈ dedupKeep l) : y ∈ l := by
  induction l with
  | nil => simp [dedupKeep] at h
  | cons x xs ih =>
    simp only [dedupKeep] at h
    split_ifs at h
    · exact List.mem_cons_of_mem _ (ih h)
    · rcases List.mem_cons.mp h with h1 | h1
      · exact h1 ▸ List.mem_cons_self x xs
      · exact List.mem_cons_of_mem _ (ih h1)

theorem stripPref_ascii (t x c : String) (h : stripPref t x = some c)
    (hx : StrAscii x) : StrAscii c := by
  unfold stripPref at h
  split_ifs at h with hp
  injection h with h'
  subst h'
  intro ch hch
  exact hx ch (List.drop_subset _ _ hch)

theorem TO_STRING_ascii : ∀ x ∈ Builtin.TO_STRING, StrAscii x := by decide

theorem candidates_ascii (ex : List String) (hex : ∀ e ∈ ex, StrAscii e)
    (t : String) (c : String) (hc : c ∈ completionCandidates ex t) : StrAscii c := by
  unfold completionCandidates dedupSort at hc
  have h1 := mem_dedupKeep _ _ (mem_sortStrs _ _ hc)
  rcases List.mem_append.mp h1 with h2 | h2
  · obtain ⟨x, hx, hsx⟩ := List.mem_filterMap.mp h2
    exact stripPref_ascii t x c hsx (TO_STRING_ascii x hx)
  · obtain ⟨x, hx, hsx⟩ := List.mem_filterMap.mp h2
    exact stripPref_ascii t x c hsx (hex x hx)

theorem rustStrLen_ascii (s : String) (h : StrAscii s) :
    rustStrLen s = s.data.length :=
  charsByteLen_ascii s.data h

theorem vecInsert_length (l : List Char) (i : Nat) (c : Char) (h : i ≤ l.length) :
    (vecInsert l i c).length = l.length + 1 := by
  simp only [vecInsert, List.length_append, List.length_take, List.length_cons,
    List.length_drop]
  omega

theorem length_eraseIdx' : ∀ (l : List Char) (i : Nat), i < l.length →
    (l.eraseIdx i).length = l.length - 1 := by
  intro l
  induction l with
  | nil => intro i h; simp at h
  | cons c cs ih =>
    intro i h
    cases i with
    | zero => simp [List.eraseIdx]
    | succ i =>
      have hi : i < cs.length := by simpa using h
      simp only [List.eraseIdx, List.length_cons]
      rw [ih i hi]
      omega

theorem tabDispatch_inv (cands : List String) (st st' : EditorState) (tc : Nat)
    (hca : ∀ c ∈ cands, StrAscii c)
    (hinv : st.cursor ≤ st.input.length)
    (h : tabDispatch cands st tc = .cont st') :
    st'.cursor ≤ st'.input.length := by
  cases cands with
  | nil =>
    simp only [tabDispatch] at h
    injection h with h2
    subst h2
    exact hinv
  | cons c0 cs =>
    cases cs with
    | nil =>
      simp only [tabDispatch] at h
      injection h with h2
      subst h2
      show st.cursor + rustStrLen c0 + 1 ≤ (st.input ++ c0.data ++ [' ']).length
      rw [rustStrLen_ascii c0 (hca c0 (by simp))]
      simp only [List.length_append, List.length_singleton]
      omega
    | cons c1 cs' =>
      simp only [tabDispatch] at h
      cases hl : lcpScan (c0 :: c1 :: cs') c0 with
      | error e => simp [hl] at h
      | ok p =>
        simp only [hl] at h
        split_ifs at h with hp
        · injection h with h2
          subst h2
          exact hinv
        · injection h with h2
          subst h2
          have hc0 : StrAscii c0 := hca c0 (by simp)
          have hpa : StrAscii p := by
            rcases lcpScan_ok_pref _ _ _ hl with rfl | ⟨k, hk⟩
            · exact hc0
            · intro ch hch
              rw [hk] at hch
              exact hc0 ch (List.take_subset _ _ hch)
          show st.cursor + rustStrLen p ≤ (st.input ++ p.data).length
          rw [rustStrLen_ascii p hpa]
          simp only [List.length_append]
          omega

theorem handleKey_inv (ex : List String) (hex : ∀ e ∈ ex, StrAscii e)
    (st st' : EditorState) (k : Key)
    (hinv : st.cursor ≤ st.input.length)
    (h : handleKey ex st k = .cont st') :
    st'.cursor ≤ st'.input.length := by
  cases k with
  | Char c =>
    simp only [handleKey] at h
    rw [if_pos hinv] at h
    injection h with h2
    subst h2
    show st.cursor + 1 ≤ (vecInsert st.input st.cursor c).length
    rw [vecInsert_length st.input st.cursor c hinv]
    omega
  | RightArrow =>
    simp only [handleKey] at h
    injection h with h2
    subst h2
    exact min_le_right _ _
  | LeftArrow =>
    simp only [handleKey] at h
    injection h with h2
    subst h2
    exact le_trans (Nat.sub_le _ _) hinv
  | Backspace =>
    simp only [handleKey] at h
    split_ifs at h with hg
    · obtain ⟨hg1, hg2⟩ := hg
      injection h with h2
      subst h2
      show st.cursor - 1 ≤ (st.input.eraseIdx (st.cursor - 1)).length
      rw [length_eraseIdx' st.input (st.cursor - 1) (by omega)]
      omega
    · injection h with h2
      subst h2
      exact hinv
  | Delete =>
    simp only [handleKey] at h
    split_ifs at h with hg
    · injection h with h2
      subst h2
      show st.cursor ≤ (st.input.eraseIdx st.cursor).length
      rw [length_eraseIdx' st.input st.cursor hg]
      omega
    · injection h with h2
      subst h2
      exact hinv
  | Newline => simp [handleKey] at h
  | Tab =>
    simp only [handleKey] at h
    unfold handleTab at h
    exact tabDispatch_inv _ st st' _
      (fun c hc => candidates_ascii ex hex _ c hc) hinv h
  | CtrlL =>
    simp only [handleKey] at h
    injection h with h2
    subst h2
    exact hinv
  | CtrlD => simp [handleKey] at h
  | UpArrow => simp [handleKey] at h
  | DownArrow => simp [handleKey] at h

/-- C9 counterexample: with the executable `qé` in the catalog, typing
`q` then Tab takes the single-completion path; the cursor advances by
`"é ".len() + 1 = 3` bytes while the buffer gains only 2 characters,
leaving cursor = 4 > buffer length = 3.  The cursor invariant is not
preserved by the Tab handler. -/
theorem editor_cursor_invariant_counterexample :
    ¬∀ st' ∈ editorTrace ["q\u00E9"] ⟨[], 0, 0⟩ [Key.Char 'q', Key.Tab],
      st'.cursor ≤ st'.input.length := by
  decide

/-- C9 (amended): provided every executable-catalog name is ASCII (so
that the Tab handler's byte-length cursor arithmetic agrees with the
char-buffer length), every keystroke sequence keeps
0 ≤ cursor ≤ buffer length at every state the editor passes through;
with a non-ASCII completion candidate Tab can push the cursor past the
end of the buffer. -/
theorem editor_cursor_invariant_ascii (ex : List String) (st : EditorState)
    (keys : List Key) (hex : ∀ e ∈ ex, StrAscii e)
    (hinv : st.cursor ≤ st.input.length) :
    ∀ st' ∈ editorTrace ex st keys, st'.cursor ≤ st'.input.length := by
  induction keys generalizing st with
  | nil => intro st' h; simp [editorTrace] at h
  | cons k ks ih =>
    intro st' hmem
    cases hk : handleKey ex st k with
    | cont st1 =>
      have htr : editorTrace ex st (k :: ks) = st1 :: editorTrace ex st1 ks := by
        simp [editorTrace, hk]
      rw [htr] at hmem
      have hst1 : st1.cursor ≤ st1.input.length := handleKey_inv ex hex st st1 k hinv hk
      rcases List.mem_cons.mp hmem with rfl | hmem'
      · exact hst1
      · exact ih st1 hst1 st' hmem'
    | done l =>
      have htr : editorTrace ex st (k :: ks) = [] := by simp [editorTrace, hk]
      rw [htr] at hmem
      simp at hmem
    | crash =>
      have htr : editorTrace ex st (k :: ks) = [] := by simp [editorTrace, hk]
      rw [htr] at hmem
      simp at hmem

/-- Witness for C9 (amended): typing `c` with catalog `["cat"]`. -/
theorem editor_cursor_invariant_ascii_witness :
    (⟨['c'], 1, 0⟩ : EditorState).cursor ≤
      (⟨['c'], 1, 0⟩ : EditorState).input.length :=
  editor_cursor_invariant_ascii ["cat"] ⟨[], 0, 0⟩ [Key.Char 'c']
    (by decide) (by decide) ⟨['c'], 1, 0⟩ (by decide)

end Shell
